import Mathlib

/-!
Verification of the Monte Carlo notebooks: a shallow embedding of
`monte_carlo_schedule` / `sample_task_duration` (critical-path scheduling)
and `monte_carlo_radiation_transport` (particle transport), together with
proofs about them.

Randomness is made explicit: every function receives the stream of draws it
consumes as an argument (`z` for standard-normal draws, `u` for uniform
draws).  The real-valued `-ln` applied to a uniform draw cannot be computed
in `ℚ`, so it is passed in as an abstract function `negLog`; facts the code
relies on (`-ln U > 0` for `U ∈ [0,1)`) appear as hypotheses.  Python
exceptions (KeyError on a missing predecessor, ValueError on `max()` of an
empty dict, ZeroDivisionError) are modelled by `Option`/`none`; the
unbounded `while True` loop of the transport walk is modelled with a fuel
parameter, where running out of fuel returns the live loop state (the walk
is still in flight) as a `Sum.inr`.
-/

namespace MonteCarlo

/-- A project task: identifier, list of predecessor identifiers, and the
PERT duration triple (optimistic, most likely, pessimistic), exactly the
shape of one entry of the notebook's `tasks` dict. -/
structure Task where
  id : ℕ
  predecessors : List ℕ
  optimistic : ℚ
  mostLikely : ℚ
  pessimistic : ℚ
deriving DecidableEq

/-- mean = (optimistic + 4 * most_likely + pessimistic) / 6 -/
def taskMean (t : Task) : ℚ := (t.optimistic + 4 * t.mostLikely + t.pessimistic) / 6

/-- std_dev = (pessimistic - optimistic) / 6 -/
def taskStdDev (t : Task) : ℚ := (t.pessimistic - t.optimistic) / 6

/-- Embeds `sample_task_duration`: `np.random.normal(mean, std_dev)` is
`mean + std_dev * z` for a standard-normal draw `z`. -/
def sample_task_duration (t : Task) (z : ℚ) : ℚ := taskMean t + taskStdDev t * z

/-- Binary maximum on `ℚ`, written with an explicit comparison so that it
evaluates by kernel reduction (the order-instance `max` does not). -/
def qmax (a b : ℚ) : ℚ := if a ≤ b then b else a

/-- Python's `max` over a nonempty collection, as a fold. -/
def listMax (a : ℚ) (l : List ℚ) : ℚ := l.foldl qmax a

/-- Dict lookup `task_durations[p]`: the most recently inserted binding of
the key wins (entries are consed at the head); `none` models a KeyError. -/
def lookupId : List (ℕ × ℚ) → ℕ → Option ℚ
  | [], _ => none
  | (k, v) :: m, a => if a = k then some v else lookupId m a

/-- Finish times of the given predecessor ids, looked up in the accumulated
`task_durations` map; `none` models the KeyError raised when a predecessor
has not been inserted yet. -/
def predFinishes (m : List (ℕ × ℚ)) : List ℕ → Option (List ℚ)
  | [] => some []
  | p :: ps => do
      let f ← lookupId m p
      let fs ← predFinishes m ps
      pure (f :: fs)

/-- `start_time = max(task_durations[p] for p in predecessors)` when the
task has predecessors, else `0`. -/
def startTime (m : List (ℕ × ℚ)) (preds : List ℕ) : Option ℚ :=
  match preds with
  | [] => some 0
  | p :: ps => do
      let f ← lookupId m p
      let fs ← predFinishes m ps
      pure (listMax f fs)

/-- The inner `for task, info in tasks.items()` loop of
`monte_carlo_schedule`: iterates the tasks in insertion order, sampling a
duration (draw index `k`) and recording `finish = start + duration` in the
accumulated association list (new entries are consed at the head, so a
lookup sees the latest binding, like a dict). -/
def runTasks (z : ℕ → ℚ) : List Task → ℕ → List (ℕ × ℚ) → Option (List (ℕ × ℚ))
  | [], _, m => some m
  | t :: ts, k, m =>
    let dur := sample_task_duration t (z k)
    match startTime m t.predecessors with
    | none => none
    | some s => runTasks z ts (k + 1) ((t.id, s + dur) :: m)

/-- One replication: run all tasks, then take
`project_duration = max(task_durations.values())`; `none` on a KeyError or
on `max()` of an empty dict. -/
def scheduleRep (z : ℕ → ℚ) (tasks : List Task) : Option ℚ :=
  match runTasks z tasks 0 [] with
  | none => none
  | some [] => none
  | some ((_, v) :: m) => some (listMax v (m.map Prod.snd))

/-- Embeds `monte_carlo_schedule`: `num_simulations` replications, each
consuming the next `tasks.length` standard-normal draws of the stream. -/
def monte_carlo_schedule (tasks : List Task) (numSimulations : ℕ) (z : ℕ → ℚ) :
    Option (List ℚ) :=
  (List.range numSimulations).mapM
    (fun r => scheduleRep (fun k => z (r * tasks.length + k)) tasks)

/-- Boolean membership of an id in a list of ids. -/
def containsId : List ℕ → ℕ → Bool
  | [], _ => false
  | x :: xs, a => a = x || containsId xs a

/-- The insertion order is a topological order: every task's predecessors
occur in `seen` or among the earlier tasks of the list. -/
def topoOrdered : List Task → List ℕ → Bool
  | [], _ => true
  | t :: ts, seen =>
    t.predecessors.all (fun p => containsId seen p) && topoOrdered ts (t.id :: seen)

/-- Direct dependency between identifiers: some task of `L` has id `a` and
lists `b` as a predecessor. -/
def Depends (L : List Task) (a b : ℕ) : Prop :=
  ∃ t, t ∈ L ∧ t.id = a ∧ b ∈ t.predecessors

/-- The dependency graph has a cycle. -/
def HasCycle (L : List Task) : Prop :=
  ∃ a, Relation.TransGen (Depends L) a a

/-- Find the (first) task with the given id. -/
def findTask : List Task → ℕ → Option Task
  | [], _ => none
  | t :: ts, i => if t.id = i then some t else findTask ts i

/-- Start value of a task in the longest-path analysis: 0 for a task with
no predecessors, else the maximum of the predecessors' finish values. -/
def lpStart (f : ℕ → ℚ) : List ℕ → ℚ
  | [] => 0
  | p :: ps => listMax (f p) (ps.map f)

/-- Longest-path (critical-path) finish value of a task id, with per-task
weight `d`: the textbook dynamic program `finish(t) = (max over
predecessors of their finish, or 0) + weight(t)`, written with a fuel
parameter so it is total.  This is the spec-side comparator for the
scheduler ("longest-path analysis over the graph"), not a transcription of
the notebook's forward insertion-order fold. -/
def lpFinishD (L : List Task) (d : Task → ℚ) : ℕ → ℕ → ℚ
  | 0, _ => 0
  | fuel + 1, i =>
    match findTask L i with
    | none => 0
    | some t => lpStart (lpFinishD L d fuel) t.predecessors + d t

/-- Spec-side project duration: the maximum longest-path finish value over
all tasks, with per-task weight `d`. -/
def projectDurationSpec (L : List Task) (d : Task → ℚ) : ℚ :=
  match L.map (fun t => lpFinishD L d L.length t.id) with
  | [] => 0
  | v :: vs => listMax v vs

/-- Deterministic critical-path length: longest path with every task
weighted by its most-likely duration. -/
def criticalPathLength (L : List Task) : ℚ :=
  projectDurationSpec L (fun t => t.mostLikely)

/-- Terminal status of one particle; `transmitted` records the exit
position appended to `transmissions`.  The in-flight status is represented
by the `Sum.inr` branch of `walk`. -/
inductive ParticleStatus
  | absorbed
  | transmitted (position : ℚ)
deriving DecidableEq

/-- Embeds the per-particle `while True` walk of
`monte_carlo_radiation_transport`.  One iteration: `step = -log(rand())`
(given as `negLog` of the next uniform draw), `position += step`; exit
transmitted when `position >= max_distance`; otherwise draw `r`: absorbed
when `r < absorption_prob`; when `r < absorption_prob + scattering_prob`
the particle is scattered and continues, and otherwise (the "should not
happen" residual branch) it also continues.  `fuel` counts how many
iterations are unrolled; exhausting it returns the live loop state
`(position, draw index)` — the particle is still in flight, exactly as the
unbounded source loop would keep running. -/
def walk (negLog : ℚ → ℚ) (u : ℕ → ℚ) (absorptionProb scatteringProb maxDistance : ℚ) :
    ℕ → ℚ → ℕ → (ParticleStatus × ℕ) ⊕ (ℚ × ℕ)
  | 0, position, k => Sum.inr (position, k)
  | fuel + 1, position, k =>
    let step := negLog (u k)
    let position2 := position + step
    if maxDistance ≤ position2 then Sum.inl (ParticleStatus.transmitted position2, k + 1)
    else
      let r := u (k + 1)
      if r < absorptionProb then Sum.inl (ParticleStatus.absorbed, k + 2)
      else if r < absorptionProb + scatteringProb then
        walk negLog u absorptionProb scatteringProb maxDistance fuel position2 (k + 2)
      else
        walk negLog u absorptionProb scatteringProb maxDistance fuel position2 (k + 2)

/-- Position of the walk after `n` loop iterations, starting at `p0` with
draw index `k0`: each iteration adds the step `negLog (u k)` and advances
the draw index by 2. -/
def walkPos (negLog : ℚ → ℚ) (u : ℕ → ℚ) (k0 : ℕ) (p0 : ℚ) : ℕ → ℚ
  | 0 => p0
  | n + 1 => walkPos negLog u k0 p0 n + negLog (u (k0 + 2 * n))

/-- The walk never reaches a terminal status: for every amount of fuel it
is still in flight. -/
def walkDiverges (negLog : ℚ → ℚ) (u : ℕ → ℚ)
    (absorptionProb scatteringProb maxDistance p0 : ℚ) (k0 : ℕ) : Prop :=
  ∀ fuel, (walk negLog u absorptionProb scatteringProb maxDistance fuel p0 k0).isRight = true

/-- The `for _ in range(num_particles)` loop: walks each particle in turn
(threading the draw index), collecting the exit positions of transmitted
particles in order, exactly like the `transmissions` list.  `none` when
some particle is still in flight after `fuel` iterations (the source loop
would not have returned at all). -/
def transportParticles (negLog : ℚ → ℚ) (u : ℕ → ℚ)
    (absorptionProb scatteringProb maxDistance : ℚ) (fuel : ℕ) :
    ℕ → ℕ → Option (List ℚ × ℕ)
  | 0, k => some ([], k)
  | n + 1, k =>
    match walk negLog u absorptionProb scatteringProb maxDistance fuel 0 k with
    | Sum.inr _ => none
    | Sum.inl (ParticleStatus.absorbed, k2) =>
        transportParticles negLog u absorptionProb scatteringProb maxDistance fuel n k2
    | Sum.inl (ParticleStatus.transmitted p, k2) =>
        match transportParticles negLog u absorptionProb scatteringProb maxDistance fuel n k2 with
        | none => none
        | some (l, k3) => some (p :: l, k3)

/-- Embeds `monte_carlo_radiation_transport`: run all particles, then
`transmission_rate = len(transmissions) / num_particles`; `none` models
the ZeroDivisionError when `num_particles = 0` (and the nontermination of
a particle that exhausts `fuel`). -/
def monte_carlo_radiation_transport (negLog : ℚ → ℚ) (u : ℕ → ℚ) (numParticles : ℕ)
    (absorptionProb scatteringProb maxDistance : ℚ) (fuel : ℕ) : Option ℚ :=
  match transportParticles negLog u absorptionProb scatteringProb maxDistance fuel
      numParticles 0 with
  | none => none
  | some (transmissions, _) =>
    if numParticles = 0 then none
    else some ((transmissions.length : ℚ) / (numParticles : ℚ))

/-- Task A of the notebook: no predecessors, durations [2, 4, 6]. -/
def taskA : Task := ⟨0, [], 2, 4, 6⟩

/-- Task B of the notebook: predecessor A, durations [3, 5, 7]. -/
def taskB : Task := ⟨1, [0], 3, 5, 7⟩

/-- Task C of the notebook: predecessor A, durations [1, 2, 3]. -/
def taskC : Task := ⟨2, [0], 1, 2, 3⟩

/-- Task D of the notebook: predecessors B and C, durations [2, 3, 4]. -/
def taskD : Task := ⟨3, [1, 2], 2, 3, 4⟩

/-- The notebook's task graph, in its insertion order. -/
def exampleTasks : List Task := [taskA, taskB, taskC, taskD]

/-- A zero-variance task (o = m = p = 4), no predecessors. -/
def zvA : Task := ⟨0, [], 4, 4, 4⟩

/-- A zero-variance task (o = m = p = 5) depending on `zvA`. -/
def zvB : Task := ⟨1, [0], 5, 5, 5⟩

/-- Task with id 0 depending on id 1. -/
def cycA : Task := ⟨0, [1], 1, 2, 3⟩

/-- Task with id 1 depending on id 0: together with `cycA`, a 2-cycle. -/
def cycB : Task := ⟨1, [0], 1, 2, 3⟩

/-- A cyclic task graph (A depends on B, B depends on A). -/
def cyclicTasks : List Task := [cycA, cycB]

/-- The `task_durations` dict produced by one replication of the
notebook's graph with all standard-normal draws equal to 0 (so every task
takes its PERT mean): finishes A = 4, B = 9, C = 6, D = 12, recorded with
the most recent insertion at the head. -/
def mFour : List (ℕ × ℚ) := [(3, 12), (2, 6), (1, 9), (0, 4)]

/-- Degenerate uniform stream for the transport walk: the k-th draw is
(1/2)^k, so the exponential steps shrink geometrically and their sum stays
below 2/3. -/
def degDraws (k : ℕ) : ℚ := (1 / 2) ^ k

/-- Degenerate stand-in for `-ln`: halves its argument (any positive
function of the draw works; only positivity and summability matter). -/
def degNegLog (q : ℚ) : ℚ := q / 2

theorem qmax_eq_max (a b : ℚ) : qmax a b = max a b := by
  unfold qmax
  rcases le_total a b with h | h
  · rw [if_pos h, max_eq_right h]
  · rcases eq_or_lt_of_le h with rfl | hlt
    · simp
    · rw [if_neg (not_le.mpr hlt), max_eq_left h]

theorem listMax_cons (a b : ℚ) (l : List ℚ) : listMax a (b :: l) = listMax (qmax a b) l := rfl

theorem le_listMax (l : List ℚ) : ∀ (a x : ℚ), x ∈ a :: l → x ≤ listMax a l := by
  induction l with
  | nil =>
    intro a x hx
    rcases List.mem_singleton.mp hx with rfl
    exact le_refl _
  | cons b l ih =>
    intro a x hx
    rw [listMax_cons]
    rcases List.mem_cons.mp hx with rfl | hx2
    · exact le_trans (by rw [qmax_eq_max]; exact le_max_left _ _) (ih _ _ (List.mem_cons_self _ _))
    · rcases List.mem_cons.mp hx2 with rfl | hx3
      · exact le_trans (by rw [qmax_eq_max]; exact le_max_right _ _) (ih _ _ (List.mem_cons_self _ _))
      · exact ih _ _ (List.mem_cons_of_mem _ hx3)

theorem qmax_cases (a b : ℚ) : qmax a b = a ∨ qmax a b = b := by
  unfold qmax
  split
  · right; rfl
  · left; rfl

theorem listMax_mem (l : List ℚ) : ∀ a : ℚ, listMax a l ∈ a :: l := by
  induction l with
  | nil => intro a; exact List.mem_singleton.mpr rfl
  | cons b l ih =>
    intro a
    rw [listMax_cons]
    rcases List.mem_cons.mp (ih (qmax a b)) with h | h
    · rcases qmax_cases a b with hq | hq
      · rw [h, hq]; exact List.mem_cons_self _ _
      · rw [h, hq]; exact List.mem_cons_of_mem _ (List.mem_cons_self _ _)
    · exact List.mem_cons_of_mem _ (List.mem_cons_of_mem _ h)

theorem listMax_congr {a b : ℚ} {l m : List ℚ}
    (h : ∀ x : ℚ, x ∈ a :: l ↔ x ∈ b :: m) : listMax a l = listMax b m := by
  refine le_antisymm ?_ ?_
  · exact le_listMax m b _ ((h _).mp (listMax_mem l a))
  · exact le_listMax l a _ ((h _).mpr (listMax_mem m b))

theorem lookupId_mem {m : List (ℕ × ℚ)} {a : ℕ} {v : ℚ}
    (h : lookupId m a = some v) : (a, v) ∈ m := by
  induction m with
  | nil => simp [lookupId] at h
  | cons e m ih =>
    obtain ⟨k, w⟩ := e
    by_cases hk : a = k
    · subst hk
      rw [lookupId, if_pos rfl] at h
      obtain rfl := Option.some.inj h
      exact List.mem_cons_self _ _
    · rw [lookupId, if_neg hk] at h
      exact List.mem_cons_of_mem _ (ih h)

theorem lookupId_isSome_of_mem {m : List (ℕ × ℚ)} {a : ℕ}
    (h : a ∈ m.map Prod.fst) : ∃ v, lookupId m a = some v := by
  induction m with
  | nil => simp at h
  | cons e m ih =>
    obtain ⟨k, w⟩ := e
    by_cases hk : a = k
    · exact ⟨w, by rw [lookupId, if_pos hk]⟩
    · rw [lookupId, if_neg hk]
      rcases List.mem_cons.mp h with h1 | h2
      · exact absurd h1 hk
      · exact ih h2

theorem lookupId_none_of_not_mem {m : List (ℕ × ℚ)} {a : ℕ}
    (h : a ∉ m.map Prod.fst) : lookupId m a = none := by
  induction m with
  | nil => rfl
  | cons e m ih =>
    obtain ⟨k, w⟩ := e
    rw [List.map_cons] at h
    rw [lookupId, if_neg (fun hk => h (by rw [hk]; exact List.mem_cons_self _ _))]
    exact ih (fun hm => h (List.mem_cons_of_mem _ hm))

theorem lookupId_of_mem_nodup {m : List (ℕ × ℚ)} {a : ℕ} {v : ℚ}
    (hmem : (a, v) ∈ m) (hnd : (m.map Prod.fst).Nodup) : lookupId m a = some v := by
  induction m with
  | nil => simp at hmem
  | cons e m ih =>
    obtain ⟨k, w⟩ := e
    rw [List.map_cons, List.nodup_cons] at hnd
    rcases List.mem_cons.mp hmem with h1 | h2
    · rw [Prod.mk.injEq] at h1
      obtain ⟨rfl, rfl⟩ := h1
      rw [lookupId, if_pos rfl]
    · have hk : a ≠ k := by
        intro hak
        subst hak
        exact hnd.1 (List.mem_map.mpr ⟨(a, v), h2, rfl⟩)
      rw [lookupId, if_neg hk]
      exact ih h2 hnd.2

theorem lookupId_append_of_not_mem {m1 m2 : List (ℕ × ℚ)} {a : ℕ}
    (h : a ∉ m1.map Prod.fst) : lookupId (m1 ++ m2) a = lookupId m2 a := by
  induction m1 with
  | nil => rfl
  | cons e m ih =>
    obtain ⟨k, w⟩ := e
    rw [List.map_cons] at h
    rw [List.cons_append, lookupId,
      if_neg (fun hk => h (by rw [hk]; exact List.mem_cons_self _ _))]
    exact ih (fun hm => h (List.mem_cons_of_mem _ hm))

theorem containsId_iff (l : List ℕ) (a : ℕ) : containsId l a = true ↔ a ∈ l := by
  induction l with
  | nil => simp [containsId]
  | cons x xs ih => simp [containsId, ih]

theorem findTask_eq_some {L : List Task} {i : ℕ} {t : Task}
    (h : findTask L i = some t) : t ∈ L ∧ t.id = i := by
  induction L with
  | nil => simp [findTask] at h
  | cons s L ih =>
    by_cases hs : s.id = i
    · rw [findTask, if_pos hs] at h
      obtain rfl := Option.some.inj h
      exact ⟨List.mem_cons_self _ _, hs⟩
    · rw [findTask, if_neg hs] at h
      exact ⟨List.mem_cons_of_mem _ (ih h).1, (ih h).2⟩

theorem id_unique {L : List Task} (hnd : (L.map Task.id).Nodup) :
    ∀ t1 ∈ L, ∀ t2 ∈ L, t1.id = t2.id → t1 = t2 := by
  induction L with
  | nil => intro t1 h1; simp at h1
  | cons s L ih =>
    rw [List.map_cons, List.nodup_cons] at hnd
    intro t1 h1 t2 h2 hid
    rcases List.mem_cons.mp h1 with rfl | h1m
    · rcases List.mem_cons.mp h2 with rfl | h2m
      · rfl
      · exact absurd (List.mem_map.mpr ⟨t2, h2m, hid.symm⟩) hnd.1
    · rcases List.mem_cons.mp h2 with rfl | h2m
      · exact absurd (List.mem_map.mpr ⟨t1, h1m, hid⟩) hnd.1
      · exact ih hnd.2 t1 h1m t2 h2m hid

theorem findTask_of_mem_nodup {L : List Task} {t : Task}
    (hmem : t ∈ L) (hnd : (L.map Task.id).Nodup) : findTask L t.id = some t := by
  induction L with
  | nil => simp at hmem
  | cons s L ih =>
    rw [List.map_cons, List.nodup_cons] at hnd
    rcases List.mem_cons.mp hmem with rfl | hm
    · rw [findTask, if_pos rfl]
    · have hs : s.id ≠ t.id := by
        intro h
        exact hnd.1 (List.mem_map.mpr ⟨t, hm, h.symm⟩)
      rw [findTask, if_neg hs]
      exact ih hm hnd.2

theorem findTask_eq_none {L : List Task} {i : ℕ}
    (h : ∀ t ∈ L, t.id ≠ i) : findTask L i = none := by
  induction L with
  | nil => rfl
  | cons s L ih =>
    rw [findTask, if_neg (h s (List.mem_cons_self _ _))]
    exact ih (fun t ht => h t (List.mem_cons_of_mem _ ht))

theorem walk_succ (negLog : ℚ → ℚ) (u : ℕ → ℚ) (a s d : ℚ) (fuel : ℕ) (p : ℚ) (k : ℕ) :
    walk negLog u a s d (fuel + 1) p k =
      if d ≤ p + negLog (u k) then
        Sum.inl (ParticleStatus.transmitted (p + negLog (u k)), k + 1)
      else if u (k + 1) < a then Sum.inl (ParticleStatus.absorbed, k + 2)
      else walk negLog u a s d fuel (p + negLog (u k)) (k + 2) := by
  show (if d ≤ p + negLog (u k) then _ else _) = _
  split
  · rfl
  · split
    · rfl
    · exact ite_self _

theorem walk_add (negLog : ℚ → ℚ) (u : ℕ → ℚ) (a s d : ℚ) (n : ℕ) :
    ∀ (m : ℕ) (p : ℚ) (k : ℕ),
      walk negLog u a s d (n + m) p k =
        Sum.elim (fun t => Sum.inl t) (fun st => walk negLog u a s d m st.1 st.2)
          (walk negLog u a s d n p k) := by
  induction n with
  | zero =>
    intro m p k
    rw [Nat.zero_add]
    rfl
  | succ n ih =>
    intro m p k
    rw [Nat.succ_add, walk_succ, walk_succ]
    split
    · rfl
    · split
      · rfl
      · exact ih m _ _

theorem walkPos_shift (negLog : ℚ → ℚ) (u : ℕ → ℚ) (k0 : ℕ) (p0 : ℚ) :
    ∀ n, walkPos negLog u (k0 + 2) (walkPos negLog u k0 p0 1) n =
      walkPos negLog u k0 p0 (n + 1) := by
  intro n
  induction n with
  | zero => rfl
  | succ n ih =>
    show walkPos negLog u (k0 + 2) _ n + negLog (u (k0 + 2 + 2 * n)) = _
    rw [ih]
    show _ = walkPos negLog u k0 p0 (n + 1) + negLog (u (k0 + 2 * (n + 1)))
    have he : k0 + 2 + 2 * n = k0 + 2 * (n + 1) := by ring
    rw [he]

theorem walk_stuck (negLog : ℚ → ℚ) (u : ℕ → ℚ) (a s maxDist : ℚ) :
    ∀ (fuel : ℕ) (p0 : ℚ) (k0 : ℕ),
      (∀ n, walkPos negLog u k0 p0 (n + 1) < maxDist) →
      (∀ n, ¬ u (k0 + 2 * n + 1) < a) →
      walk negLog u a s maxDist fuel p0 k0 =
        Sum.inr (walkPos negLog u k0 p0 fuel, k0 + 2 * fuel) := by
  intro fuel
  induction fuel with
  | zero =>
    intro p0 k0 hd ha
    show Sum.inr (p0, k0) = _
    rw [show k0 + 2 * 0 = k0 from by ring]
    rfl
  | succ fuel ih =>
    intro p0 k0 hd ha
    rw [walk_succ]
    have hp1 : p0 + negLog (u k0) = walkPos negLog u k0 p0 1 := by
      show _ = p0 + negLog (u (k0 + 2 * 0))
      rw [show k0 + 2 * 0 = k0 from by ring]
    rw [if_neg (not_le.mpr (by rw [hp1]; exact hd 0)),
      if_neg (by have h0 := ha 0; rw [show k0 + 2 * 0 + 1 = k0 + 1 from by ring] at h0; exact h0)]
    rw [hp1, ih (walkPos negLog u k0 p0 1) (k0 + 2)
      (fun n => by rw [walkPos_shift]; exact hd (n + 1))
      (fun n => by rw [show k0 + 2 + 2 * n + 1 = k0 + 2 * (n + 1) + 1 from by ring]; exact ha (n + 1))]
    rw [walkPos_shift]
    rw [show k0 + 2 + 2 * fuel = k0 + 2 * (fuel + 1) from by ring]

theorem degDraws_bound :
    ∀ n, walkPos degNegLog degDraws 0 0 n ≤ 2 / 3 - (2 / 3) * (1 / 4 : ℚ) ^ n := by
  intro n
  induction n with
  | zero => norm_num [walkPos]
  | succ n ih =>
    show walkPos degNegLog degDraws 0 0 n + degNegLog (degDraws (0 + 2 * n)) ≤ _
    rw [Nat.zero_add]
    have hstep : degNegLog (degDraws (2 * n)) = (1 / 2) * (1 / 4 : ℚ) ^ n := by
      unfold degNegLog degDraws
      rw [pow_mul]
      norm_num
      ring
    rw [hstep]
    have hpow : (0 : ℚ) ≤ (1 / 4 : ℚ) ^ n := by positivity
    have hgoal : (2 / 3 : ℚ) - 2 / 3 * (1 / 4) ^ (n + 1) =
        2 / 3 - 2 / 3 * (1 / 4) ^ n + (1 / 2) * (1 / 4) ^ n := by
      rw [pow_succ]
      ring
    rw [hgoal]
    linarith

theorem walk_scatter_congr (negLog : ℚ → ℚ) (u : ℕ → ℚ) (a s1 s2 d : ℚ) :
    ∀ (fuel : ℕ) (p : ℚ) (k : ℕ),
      walk negLog u a s1 d fuel p k = walk negLog u a s2 d fuel p k := by
  intro fuel
  induction fuel with
  | zero => intro p k; rfl
  | succ fuel ih =>
    intro p k
    rw [walk_succ, walk_succ]
    split
    · rfl
    · split
      · rfl
      · exact ih _ _

theorem transport_scatter_congr (negLog : ℚ → ℚ) (u : ℕ → ℚ) (a s1 s2 d : ℚ) (fuel : ℕ) :
    ∀ (n k : ℕ),
      transportParticles negLog u a s1 d fuel n k =
        transportParticles negLog u a s2 d fuel n k := by
  intro n
  induction n with
  | zero => intro k; rfl
  | succ n ih =>
    intro k
    have hw := walk_scatter_congr negLog u a s1 s2 d fuel 0 k
    cases hwr : walk negLog u a s2 d fuel 0 k with
    | inr st => simp only [transportParticles, hw, hwr]
    | inl res =>
      obtain ⟨fate, k2⟩ := res
      cases fate with
      | absorbed =>
        simp only [transportParticles, hw, hwr]
        exact ih k2
      | transmitted p => simp only [transportParticles, hw, hwr, ih k2]

theorem transport_length_le (negLog : ℚ → ℚ) (u : ℕ → ℚ) (a s d : ℚ) (fuel : ℕ) :
    ∀ (n k : ℕ) (l : List ℚ) (k2 : ℕ),
      transportParticles negLog u a s d fuel n k = some (l, k2) → l.length ≤ n := by
  intro n
  induction n with
  | zero =>
    intro k l k2 h
    simp only [transportParticles] at h
    have hlk := Option.some.inj h
    rw [Prod.mk.injEq] at hlk
    rw [← hlk.1]
    exact le_refl 0
  | succ n ih =>
    intro k l k2 h
    cases hw : walk negLog u a s d fuel 0 k with
    | inr st =>
      simp only [transportParticles, hw] at h
      exact absurd h (by simp)
    | inl res =>
      obtain ⟨fate, k3⟩ := res
      cases fate with
      | absorbed =>
        simp only [transportParticles, hw] at h
        exact le_trans (ih k3 l k2 h) (Nat.le_succ n)
      | transmitted p =>
        simp only [transportParticles, hw] at h
        cases hr : transportParticles negLog u a s d fuel n k3 with
        | none => simp only [hr] at h; exact absurd h (by simp)
        | some res2 =>
          obtain ⟨l2, k4⟩ := res2
          simp only [hr] at h
          have hlk := Option.some.inj h
          rw [Prod.mk.injEq] at hlk
          rw [← hlk.1]
          simp only [List.length_cons]
          exact Nat.succ_le_succ (ih k3 l2 k4 hr)

theorem walk_transmit_zero_dist (negLog : ℚ → ℚ) (u : ℕ → ℚ) (a s : ℚ) (fuel : ℕ)
    (hfuel : 1 ≤ fuel) (hstep : ∀ q, 0 ≤ negLog q) :
    ∀ k, walk negLog u a s 0 fuel 0 k =
      Sum.inl (ParticleStatus.transmitted (negLog (u k)), k + 1) := by
  intro k
  obtain ⟨f, rfl⟩ : ∃ f, fuel = f + 1 := ⟨fuel - 1, by omega⟩
  rw [walk_succ, if_pos (by rw [zero_add]; exact hstep (u k))]
  rw [zero_add]

theorem transport_zero_dist (negLog : ℚ → ℚ) (u : ℕ → ℚ) (a s : ℚ) (fuel : ℕ)
    (hfuel : 1 ≤ fuel) (hstep : ∀ q, 0 ≤ negLog q) :
    ∀ (n k : ℕ), ∃ l : List ℚ,
      transportParticles negLog u a s 0 fuel n k = some (l, k + n) ∧ l.length = n := by
  intro n
  induction n with
  | zero => intro k; exact ⟨[], by rw [Nat.add_zero]; rfl, rfl⟩
  | succ n ih =>
    intro k
    obtain ⟨l, hl, hlen⟩ := ih (k + 1)
    refine ⟨negLog (u k) :: l, ?_, by rw [List.length_cons, hlen]⟩
    simp only [transportParticles, walk_transmit_zero_dist negLog u a s fuel hfuel hstep k, hl]
    rw [show k + 1 + n = k + (n + 1) from by omega]

/-- C3 counterexample: with absorptionProb = scatteringProb = 3/5 (sum 6/5
exceeding 1), `monte_carlo_radiation_transport` does not fail at
construction or anywhere else: it runs to completion and returns a
transmission rate, so no `ConfigurationError` validation exists. -/
theorem claim3_counterexample :
    (1 : ℚ) < 3 / 5 + 3 / 5 ∧
    monte_carlo_radiation_transport (fun _ => 1) (fun _ => 0) 1 (3 / 5) (3 / 5) 0 1 = some 1 := by
  constructor
  · norm_num
  · norm_num [monte_carlo_radiation_transport, transportParticles, walk]

/-- C3 (amended): the code never validates the probabilities; indeed its
result is entirely independent of scatteringProb (the scatter branch and
the residual branch both just continue the walk), so a configuration with
absorptionProb + scatteringProb > 1 behaves exactly like one whose
probabilities are admissible and no error is ever raised for it. -/
theorem claim3_theorem (negLog : ℚ → ℚ) (u : ℕ → ℚ) (numParticles : ℕ)
    (a s1 s2 maxDist : ℚ) (fuel : ℕ) :
    monte_carlo_radiation_transport negLog u numParticles a s1 maxDist fuel =
      monte_carlo_radiation_transport negLog u numParticles a s2 maxDist fuel := by
  unfold monte_carlo_radiation_transport
  rw [transport_scatter_congr negLog u a s1 s2 maxDist fuel numParticles 0]

/-- C4 counterexample: the walk has no iteration cap and raises no
`NonTerminatingWalk` failure: with absorptionProb = 0, scatteringProb = 1,
maxDistance = 10 and a draw stream whose exponential steps sum below 2/3,
the walk is still in flight after every finite number of iterations —
the source's `while True` loop simply never exits. -/
theorem claim4_counterexample : walkDiverges degNegLog degDraws 0 1 10 0 0 := by
  intro fuel
  rw [walk_stuck degNegLog degDraws 0 1 10 fuel 0 0
    (fun n => lt_of_le_of_lt (degDraws_bound (n + 1))
      (by linarith [pow_nonneg (by norm_num : (0 : ℚ) ≤ 1 / 4) (n + 1)]))
    (fun n => by
      show ¬ (1 / 2 : ℚ) ^ (0 + 2 * n + 1) < 0
      exact not_lt.mpr (pow_nonneg (by norm_num) _))]
  rfl

/-- C4 (amended): the code's per-particle walk enforces no iteration cap
at all: whenever the draw sequence keeps every partial position below
maxDistance and never draws an interaction value below absorptionProb, the
walk reaches no terminal status within any finite number of iterations —
nothing bounds the loop and no `NonTerminatingWalk` error exists. -/
theorem claim4_theorem (negLog : ℚ → ℚ) (u : ℕ → ℚ) (a s maxDist p0 : ℚ) (k0 : ℕ)
    (hd : ∀ n, walkPos negLog u k0 p0 (n + 1) < maxDist)
    (ha : ∀ n, ¬ u (k0 + 2 * n + 1) < a) :
    walkDiverges negLog u a s maxDist p0 k0 := by
  intro fuel
  rw [walk_stuck negLog u a s maxDist fuel p0 k0 hd ha]
  rfl

/-- C4 witness: the amended theorem applied at a concrete degenerate
configuration (maxDistance = 20, geometrically shrinking steps). -/
theorem claim4_witness : walkDiverges degNegLog degDraws 0 1 20 0 0 :=
  claim4_theorem degNegLog degDraws 0 1 20 0 0
    (fun n => lt_of_le_of_lt (degDraws_bound (n + 1))
      (by linarith [pow_nonneg (by norm_num : (0 : ℚ) ≤ 1 / 4) (n + 1)]))
    (fun n => by
      show ¬ (1 / 2 : ℚ) ^ (0 + 2 * n + 1) < 0
      exact not_lt.mpr (pow_nonneg (by norm_num) _))

/-- C7: with absorptionProb = 0, scatteringProb = 0 and maxDistance = 0,
every particle is transmitted at its first step check (the first
exponential step is nonnegative, so position ≥ maxDistance holds
immediately), and for any numParticles ≥ 1 the transmission rate is
exactly 1. -/
theorem claim7_theorem (negLog : ℚ → ℚ) (u : ℕ → ℚ) (numParticles fuel : ℕ)
    (hn : 1 ≤ numParticles) (hfuel : 1 ≤ fuel) (hstep : ∀ q, 0 ≤ negLog q) :
    monte_carlo_radiation_transport negLog u numParticles 0 0 0 fuel = some 1 := by
  obtain ⟨l, hl, hlen⟩ := transport_zero_dist negLog u 0 0 fuel hfuel hstep numParticles 0
  simp only [monte_carlo_radiation_transport, hl]
  rw [if_neg (by omega), hlen, div_self (Nat.cast_ne_zero.mpr (by omega))]

/-- C7 witness: two particles, unit steps, one unrolled iteration. -/
theorem claim7_witness :
    monte_carlo_radiation_transport (fun _ => 1) (fun _ => 0) 2 0 0 0 1 = some 1 :=
  claim7_theorem (fun _ => 1) (fun _ => 0) 2 1 (by norm_num) (by norm_num)
    (fun q => by norm_num)

/-- C8: the particle starts at position 0; while the walk is in flight its
position is never negative; and one further loop iteration that stays in
flight strictly increases the position (each exponential step is strictly
positive). -/
theorem claim8_theorem (negLog : ℚ → ℚ) (u : ℕ → ℚ) (a s maxDist : ℚ) (k0 : ℕ)
    (hstep : ∀ q, 0 < negLog q) :
    walk negLog u a s maxDist 0 0 k0 = Sum.inr (0, k0) ∧
    (∀ n p k, walk negLog u a s maxDist n 0 k0 = Sum.inr (p, k) → 0 ≤ p) ∧
    (∀ n p k p2 k2, walk negLog u a s maxDist n 0 k0 = Sum.inr (p, k) →
      walk negLog u a s maxDist (n + 1) 0 k0 = Sum.inr (p2, k2) → p < p2) := by
  have step1 : ∀ (p : ℚ) (k : ℕ) (p2 : ℚ) (k2 : ℕ),
      walk negLog u a s maxDist 1 p k = Sum.inr (p2, k2) →
      p2 = p + negLog (u k) := by
    intro p k p2 k2 h
    rw [walk_succ] at h
    by_cases h1 : maxDist ≤ p + negLog (u k)
    · rw [if_pos h1] at h
      exact absurd h (by simp)
    · rw [if_neg h1] at h
      by_cases h2 : u (k + 1) < a
      · rw [if_pos h2] at h
        exact absurd h (by simp)
      · rw [if_neg h2] at h
        have hh := Sum.inr.inj h
        rw [Prod.mk.injEq] at hh
        exact hh.1.symm
  have nonneg : ∀ n p k, walk negLog u a s maxDist n 0 k0 = Sum.inr (p, k) → 0 ≤ p := by
    intro n
    induction n with
    | zero =>
      intro p k h
      have hh := Sum.inr.inj h
      rw [Prod.mk.injEq] at hh
      rw [← hh.1]
    | succ n ih =>
      intro p k h
      rw [walk_add negLog u a s maxDist n 1] at h
      cases hw : walk negLog u a s maxDist n 0 k0 with
      | inl t =>
        rw [hw] at h
        simp only [Sum.elim_inl] at h
        exact absurd h (by simp)
      | inr st =>
        obtain ⟨q, j⟩ := st
        rw [hw] at h
        simp only [Sum.elim_inr] at h
        have hp := step1 q j p k h
        have hq := ih q j hw
        rw [hp]
        linarith [le_of_lt (hstep (u j))]
  refine ⟨rfl, nonneg, ?_⟩
  intro n p k p2 k2 h h2
  rw [walk_add negLog u a s maxDist n 1, h] at h2
  simp only [Sum.elim_inr] at h2
  have hp := step1 p k p2 k2 h2
  rw [hp]
  linarith [hstep (u k)]

/-- C8 witness: the invariant theorem at a concrete configuration with
constant unit steps. -/
theorem claim8_witness :
    walk (fun _ => (1 : ℚ)) (fun _ => 0) (1 / 2) (1 / 2) 100 0 0 5 = Sum.inr (0, 5) :=
  (claim8_theorem (fun _ => 1) (fun _ => 0) (1 / 2) (1 / 2) 100 5
    (fun q => by norm_num)).1

/-- C9: the models are deterministic functions of their configuration and
of the stream of random draws: two runs fed pointwise-identical draw
streams (as produced by the same seed and worker partition) return
identical outputs, for both the scheduler and the particle transport. -/
theorem claim9_theorem (L : List Task) (numSimulations : ℕ) (z1 z2 : ℕ → ℚ)
    (negLog1 negLog2 : ℚ → ℚ) (u1 u2 : ℕ → ℚ) (numParticles : ℕ)
    (a s maxDist : ℚ) (fuel : ℕ)
    (hz : ∀ i, z1 i = z2 i) (hnl : ∀ q, negLog1 q = negLog2 q) (hu : ∀ i, u1 i = u2 i) :
    monte_carlo_schedule L numSimulations z1 = monte_carlo_schedule L numSimulations z2 ∧
    monte_carlo_radiation_transport negLog1 u1 numParticles a s maxDist fuel =
      monte_carlo_radiation_transport negLog2 u2 numParticles a s maxDist fuel := by
  have h1 : z1 = z2 := funext hz
  have h2 : negLog1 = negLog2 := funext hnl
  have h3 : u1 = u2 := funext hu
  subst h1
  subst h2
  subst h3
  exact ⟨rfl, rfl⟩

/-- C9 witness: the determinism theorem at a concrete configuration. -/
theorem claim9_witness :
    monte_carlo_schedule exampleTasks 3 (fun _ => 0) =
      monte_carlo_schedule exampleTasks 3 (fun _ => 0) ∧
    monte_carlo_radiation_transport (fun q => q) (fun _ => 0) 4 (1 / 2) (1 / 2) 7 9 =
      monte_carlo_radiation_transport (fun q => q) (fun _ => 0) 4 (1 / 2) (1 / 2) 7 9 :=
  claim9_theorem exampleTasks 3 (fun _ => 0) (fun _ => 0) (fun q => q) (fun q => q)
    (fun _ => 0) (fun _ => 0) 4 (1 / 2) (1 / 2) 7 9
    (fun i => rfl) (fun q => rfl) (fun i => rfl)

/-- C10: with numParticles = 0 the final division
`len(transmissions) / num_particles` raises ZeroDivisionError (modelled as
`none`); with numParticles > 0 a successful run returns a transmission
rate in [0, 1]. -/
theorem claim10_theorem (negLog : ℚ → ℚ) (u : ℕ → ℚ) (a s maxDist : ℚ) (fuel : ℕ) :
    monte_carlo_radiation_transport negLog u 0 a s maxDist fuel = none ∧
    (∀ (numParticles : ℕ) (r : ℚ),
      monte_carlo_radiation_transport negLog u numParticles a s maxDist fuel = some r →
      0 < numParticles ∧ 0 ≤ r ∧ r ≤ 1) := by
  constructor
  · rfl
  · intro np r h
    cases ht : transportParticles negLog u a s maxDist fuel np 0 with
    | none =>
      simp only [monte_carlo_radiation_transport, ht] at h
      exact absurd h (by simp)
    | some res =>
      obtain ⟨l, k2⟩ := res
      simp only [monte_carlo_radiation_transport, ht] at h
      by_cases hnp : np = 0
      · rw [if_pos hnp] at h
        exact absurd h (by simp)
      · rw [if_neg hnp] at h
        have hr := Option.some.inj h
        have hlen := transport_length_le negLog u a s maxDist fuel np 0 l k2 ht
        refine ⟨Nat.pos_of_ne_zero hnp, ?_, ?_⟩
        · rw [← hr]
          exact div_nonneg (Nat.cast_nonneg _) (Nat.cast_nonneg _)
        · rw [← hr]
          rw [div_le_one (by exact_mod_cast Nat.pos_of_ne_zero hnp)]
          exact_mod_cast hlen

/-- C10 witness: two particles that are both absorbed give rate 0 ∈ [0,1];
the bound follows by applying the theorem. -/
theorem claim10_witness :
    monte_carlo_radiation_transport (fun _ => 1) (fun _ => 0) 2 (1 / 2) (1 / 2) 3 1 = some 0 ∧
    (0 : ℚ) ≤ 0 ∧ (0 : ℚ) ≤ 1 := by
  have h : monte_carlo_radiation_transport (fun _ => 1) (fun _ => 0) 2 (1 / 2) (1 / 2) 3 1 =
      some 0 := by
    norm_num [monte_carlo_radiation_transport, transportParticles, walk]
  exact ⟨h, ((claim10_theorem (fun _ => 1) (fun _ => 0) (1 / 2) (1 / 2) 3 1).2 2 0 h).2⟩

theorem predFinishes_eq_map {m : List (ℕ × ℚ)} {g : ℕ → ℚ} :
    ∀ {ps : List ℕ}, (∀ p ∈ ps, lookupId m p = some (g p)) →
      predFinishes m ps = some (ps.map g) := by
  intro ps
  induction ps with
  | nil => intro _; rfl
  | cons p ps ih =>
    intro h
    simp only [predFinishes, h p (List.mem_cons_self _ _),
      ih (fun q hq => h q (List.mem_cons_of_mem _ hq)), Option.bind_eq_bind,
      Option.some_bind, List.map_cons]
    rfl

theorem startTime_eq_cons {m : List (ℕ × ℚ)} {g : ℕ → ℚ} {p : ℕ} {ps : List ℕ}
    (h : ∀ x ∈ p :: ps, lookupId m x = some (g x)) :
    startTime m (p :: ps) = some (listMax (g p) (ps.map g)) := by
  simp only [startTime, h p (List.mem_cons_self _ _),
    predFinishes_eq_map (fun q hq => h q (List.mem_cons_of_mem _ hq)),
    Option.bind_eq_bind, Option.some_bind]
  rfl

theorem predFinishes_isSome_of_keys {m : List (ℕ × ℚ)} :
    ∀ {ps : List ℕ}, (∀ p ∈ ps, p ∈ m.map Prod.fst) →
      ∃ fs, predFinishes m ps = some fs := by
  intro ps
  induction ps with
  | nil => intro _; exact ⟨[], rfl⟩
  | cons p ps ih =>
    intro h
    obtain ⟨v, hv⟩ := lookupId_isSome_of_mem (h p (List.mem_cons_self _ _))
    obtain ⟨fs, hfs⟩ := ih (fun q hq => h q (List.mem_cons_of_mem _ hq))
    refine ⟨v :: fs, ?_⟩
    simp only [predFinishes, hv, hfs, Option.bind_eq_bind, Option.some_bind]
    rfl

theorem startTime_isSome_of_keys {m : List (ℕ × ℚ)} {preds : List ℕ}
    (h : ∀ p ∈ preds, p ∈ m.map Prod.fst) : ∃ s, startTime m preds = some s := by
  cases preds with
  | nil => exact ⟨0, rfl⟩
  | cons p ps =>
    obtain ⟨v, hv⟩ := lookupId_isSome_of_mem (h p (List.mem_cons_self _ _))
    obtain ⟨fs, hfs⟩ := predFinishes_isSome_of_keys (fun q hq => h q (List.mem_cons_of_mem _ hq))
    refine ⟨listMax v fs, ?_⟩
    simp only [startTime, hv, hfs, Option.bind_eq_bind, Option.some_bind]
    rfl

theorem predFinishes_mem_keys {m : List (ℕ × ℚ)} :
    ∀ {ps : List ℕ} {fs : List ℚ}, predFinishes m ps = some fs →
      ∀ p ∈ ps, p ∈ m.map Prod.fst := by
  intro ps
  induction ps with
  | nil => intro fs _ p hp; simp at hp
  | cons p ps ih =>
    intro fs h q hq
    cases hl : lookupId m p with
    | none => simp [predFinishes, hl] at h
    | some v =>
      cases hfs : predFinishes m ps with
      | none => simp [predFinishes, hl, hfs] at h
      | some fs2 =>
        rcases List.mem_cons.mp hq with rfl | hq2
        · exact List.mem_map.mpr ⟨(q, v), lookupId_mem hl, rfl⟩
        · exact ih hfs q hq2

theorem startTime_mem_keys {m : List (ℕ × ℚ)} {preds : List ℕ} {s : ℚ}
    (h : startTime m preds = some s) : ∀ p ∈ preds, p ∈ m.map Prod.fst := by
  cases preds with
  | nil => intro p hp; simp at hp
  | cons p ps =>
    intro q hq
    cases hl : lookupId m p with
    | none => simp [startTime, hl] at h
    | some v =>
      cases hfs : predFinishes m ps with
      | none => simp [startTime, hl, hfs] at h
      | some fs =>
        rcases List.mem_cons.mp hq with rfl | hq2
        · exact List.mem_map.mpr ⟨(q, v), lookupId_mem hl, rfl⟩
        · exact predFinishes_mem_keys hfs q hq2

theorem predFinishes_congr {m1 m2 : List (ℕ × ℚ)} :
    ∀ {ps : List ℕ}, (∀ p ∈ ps, lookupId m1 p = lookupId m2 p) →
      predFinishes m1 ps = predFinishes m2 ps := by
  intro ps
  induction ps with
  | nil => intro _; rfl
  | cons p ps ih =>
    intro h
    simp only [predFinishes, h p (List.mem_cons_self _ _),
      ih (fun q hq => h q (List.mem_cons_of_mem _ hq))]

theorem startTime_congr {m1 m2 : List (ℕ × ℚ)} {preds : List ℕ}
    (h : ∀ p ∈ preds, lookupId m1 p = lookupId m2 p) :
    startTime m1 preds = startTime m2 preds := by
  cases preds with
  | nil => rfl
  | cons p ps =>
    simp only [startTime, h p (List.mem_cons_self _ _),
      predFinishes_congr (fun q hq => h q (List.mem_cons_of_mem _ hq))]

theorem runTasks_sound (z : ℕ → ℚ) :
    ∀ (todo : List Task) (k : ℕ) (m0 m : List (ℕ × ℚ)),
      runTasks z todo k m0 = some m →
      ∃ ext : List (ℕ × ℚ),
        m = ext.reverse ++ m0 ∧
        ext.map Prod.fst = todo.map Task.id ∧
        ∀ (i : ℕ) (t : Task), todo[i]? = some t →
          ∃ s, startTime ((ext.take i).reverse ++ m0) t.predecessors = some s ∧
            ext[i]? = some (t.id, s + sample_task_duration t (z (k + i))) := by
  intro todo
  induction todo with
  | nil =>
    intro k m0 m h
    obtain rfl := Option.some.inj h
    exact ⟨[], by simp, by simp, fun i t ht => by simp at ht⟩
  | cons t ts ih =>
    intro k m0 m h
    cases hst : startTime m0 t.predecessors with
    | none =>
      simp only [runTasks, hst] at h
      exact absurd h (by simp)
    | some s =>
      simp only [runTasks, hst] at h
      obtain ⟨ext2, hm, hkeys, hfix⟩ :=
        ih (k + 1) ((t.id, s + sample_task_duration t (z k)) :: m0) m h
      refine ⟨(t.id, s + sample_task_duration t (z k)) :: ext2, ?_, ?_, ?_⟩
      · rw [hm, List.reverse_cons, List.append_assoc, List.singleton_append]
      · rw [List.map_cons, hkeys, List.map_cons]
      · intro i t2 ht2
        cases i with
        | zero =>
          rw [List.getElem?_cons_zero] at ht2
          obtain rfl := Option.some.inj ht2
          refine ⟨s, by simpa using hst, ?_⟩
          rw [List.getElem?_cons_zero, Nat.add_zero]
        | succ i =>
          rw [List.getElem?_cons_succ] at ht2
          obtain ⟨s2, hstart2, hget2⟩ := hfix i t2 ht2
          refine ⟨s2, ?_, ?_⟩
          · rw [List.take_succ_cons, List.reverse_cons, List.append_assoc,
              List.singleton_append]
            exact hstart2
          · rw [List.getElem?_cons_succ, hget2,
              show k + 1 + i = k + (i + 1) from by omega]

theorem runTasks_some_of_topo (z : ℕ → ℚ) :
    ∀ (todo : List Task) (k : ℕ) (m0 : List (ℕ × ℚ)),
      topoOrdered todo (m0.map Prod.fst) = true →
      ∃ m, runTasks z todo k m0 = some m := by
  intro todo
  induction todo with
  | nil => intro k m0 _; exact ⟨m0, rfl⟩
  | cons t ts ih =>
    intro k m0 ht
    simp only [topoOrdered, Bool.and_eq_true, List.all_eq_true] at ht
    have hkeys : ∀ p ∈ t.predecessors, p ∈ m0.map Prod.fst :=
      fun p hp => (containsId_iff _ _).mp (ht.1 p hp)
    obtain ⟨s, hs⟩ := startTime_isSome_of_keys hkeys
    obtain ⟨m, hm⟩ := ih (k + 1) ((t.id, s + sample_task_duration t (z k)) :: m0)
      (by rw [List.map_cons]; exact ht.2)
    refine ⟨m, ?_⟩
    simp only [runTasks, hs]
    exact hm

theorem topo_preds : ∀ (L : List Task) (seen : List ℕ), topoOrdered L seen = true →
    ∀ (i : ℕ) (t : Task), L[i]? = some t → ∀ p ∈ t.predecessors,
      p ∈ seen ∨ ∃ (j : ℕ) (tj : Task), j < i ∧ L[j]? = some tj ∧ tj.id = p := by
  intro L
  induction L with
  | nil => intro seen _ i t ht; simp at ht
  | cons t0 ts ih =>
    intro seen htopo i t ht p hp
    simp only [topoOrdered, Bool.and_eq_true, List.all_eq_true] at htopo
    cases i with
    | zero =>
      rw [List.getElem?_cons_zero] at ht
      obtain rfl := Option.some.inj ht
      exact Or.inl ((containsId_iff _ _).mp (htopo.1 p hp))
    | succ i =>
      rw [List.getElem?_cons_succ] at ht
      rcases ih (t0.id :: seen) htopo.2 i t ht p hp with hmem | ⟨j, tj, hj, hget, hid⟩
      · rcases List.mem_cons.mp hmem with rfl | hseen
        · exact Or.inr ⟨0, t0, Nat.succ_pos i, by rw [List.getElem?_cons_zero], rfl⟩
        · exact Or.inl hseen
      · exact Or.inr ⟨j + 1, tj, Nat.succ_lt_succ hj,
          by rw [List.getElem?_cons_succ]; exact hget, hid⟩

theorem lookupId_take_to_full {ext : List (ℕ × ℚ)} (hnd : (ext.map Prod.fst).Nodup)
    (i : ℕ) {p : ℕ} {v : ℚ} (h : lookupId ((ext.take i).reverse) p = some v) :
    lookupId ext.reverse p = some v := by
  have hmem : (p, v) ∈ ext := List.mem_of_mem_take (List.mem_reverse.mp (lookupId_mem h))
  refine lookupId_of_mem_nodup (List.mem_reverse.mpr hmem) ?_
  rw [List.map_reverse]
  exact List.nodup_reverse.mpr hnd

theorem lpStart_congr {f g : ℕ → ℚ} {preds : List ℕ} (h : ∀ q ∈ preds, f q = g q) :
    lpStart f preds = lpStart g preds := by
  cases preds with
  | nil => rfl
  | cons p ps =>
    simp only [lpStart]
    rw [h p (List.mem_cons_self _ _),
      List.map_congr_left (fun q hq => h q (List.mem_cons_of_mem _ hq))]

theorem lpFinishD_stable (L : List Task) (d : Task → ℚ)
    (hnd : (L.map Task.id).Nodup) (htopo : topoOrdered L [] = true) :
    ∀ (i : ℕ) (t : Task), L[i]? = some t → ∀ (f1 f2 : ℕ), i < f1 → i < f2 →
      lpFinishD L d f1 t.id = lpFinishD L d f2 t.id := by
  intro i
  induction i using Nat.strong_induction_on with
  | _ i ih =>
    intro t ht f1 f2 h1 h2
    obtain ⟨a, rfl⟩ : ∃ a, f1 = a + 1 := ⟨f1 - 1, by omega⟩
    obtain ⟨b, rfl⟩ : ∃ b, f2 = b + 1 := ⟨f2 - 1, by omega⟩
    have htL : t ∈ L := List.mem_iff_getElem?.mpr ⟨i, ht⟩
    have hfind : findTask L t.id = some t := findTask_of_mem_nodup htL hnd
    have hq : ∀ q ∈ t.predecessors, lpFinishD L d a q = lpFinishD L d b q := by
      intro q hqm
      rcases topo_preds L [] htopo i t ht q hqm with hmem | ⟨j, tj, hj, hget, hid⟩
      · simp at hmem
      · rw [← hid]
        exact ih j hj tj hget a b (by omega) (by omega)
    simp only [lpFinishD, hfind]
    congr 1
    exact lpStart_congr hq

theorem runTasks_lookup_lp (z : ℕ → ℚ) (L : List Task) (d : Task → ℚ)
    (hnd : (L.map Task.id).Nodup) (htopo : topoOrdered L [] = true)
    (hz : ∀ (i : ℕ) (t : Task), L[i]? = some t → sample_task_duration t (z i) = d t)
    {ext : List (ℕ × ℚ)}
    (hkeys : ext.map Prod.fst = L.map Task.id)
    (hfix : ∀ (i : ℕ) (t : Task), L[i]? = some t →
      ∃ s, startTime ((ext.take i).reverse) t.predecessors = some s ∧
        ext[i]? = some (t.id, s + sample_task_duration t (z i))) :
    ∀ (i : ℕ) (t : Task), L[i]? = some t →
      lookupId ext.reverse t.id = some (lpFinishD L d L.length t.id) := by
  have hknd : (ext.map Prod.fst).Nodup := by rw [hkeys]; exact hnd
  have hrevnd : (ext.reverse.map Prod.fst).Nodup := by
    rw [List.map_reverse]
    exact List.nodup_reverse.mpr hknd
  intro i
  induction i using Nat.strong_induction_on with
  | _ i ih =>
    intro t ht
    obtain ⟨s, hstart, hget⟩ := hfix i t ht
    have hpredlook : ∀ p ∈ t.predecessors,
        lookupId ext.reverse p = some (lpFinishD L d L.length p) := by
      intro p hp
      rcases topo_preds L [] htopo i t ht p hp with hmem | ⟨j, tj, hj, hget2, hid⟩
      · simp at hmem
      · rw [← hid]
        exact ih j hj tj hget2
    have hpart : ∀ p ∈ t.predecessors,
        lookupId ((ext.take i).reverse) p = lookupId ext.reverse p := by
      intro p hp
      obtain ⟨v, hv⟩ := lookupId_isSome_of_mem (startTime_mem_keys hstart p hp)
      rw [hv, lookupId_take_to_full hknd i hv]
    have hstartF : startTime ext.reverse t.predecessors = some s := by
      rw [← startTime_congr hpart]
      exact hstart
    have hmem : (t.id, s + sample_task_duration t (z i)) ∈ ext :=
      List.mem_iff_getElem?.mpr ⟨i, hget⟩
    have hlook : lookupId ext.reverse t.id = some (s + sample_task_duration t (z i)) :=
      lookupId_of_mem_nodup (List.mem_reverse.mpr hmem) hrevnd
    obtain ⟨hlen, _⟩ := List.getElem?_eq_some_iff.mp ht
    obtain ⟨c, hc⟩ : ∃ c, L.length = c + 1 := ⟨L.length - 1, by omega⟩
    have hfind : findTask L t.id = some t :=
      findTask_of_mem_nodup (List.mem_iff_getElem?.mpr ⟨i, ht⟩) hnd
    have hlp : lpFinishD L d L.length t.id = s + d t := by
      rw [hc]
      simp only [lpFinishD, hfind]
      congr 1
      have hstab : ∀ q ∈ t.predecessors, lpFinishD L d c q = lpFinishD L d L.length q := by
        intro q hqm
        rcases topo_preds L [] htopo i t ht q hqm with hmem2 | ⟨j, tj, hj, hget2, hid⟩
        · simp at hmem2
        · rw [← hid]
          exact lpFinishD_stable L d hnd htopo j tj hget2 c L.length (by omega) (by omega)
      rw [lpStart_congr hstab]
      cases hpreds : t.predecessors with
      | nil =>
        rw [hpreds] at hstartF
        simp only [lpStart]
        exact Option.some.inj hstartF
      | cons p ps =>
        rw [hpreds] at hstartF
        have hpl : ∀ x ∈ p :: ps,
            lookupId ext.reverse x = some (lpFinishD L d L.length x) :=
          fun x hx => hpredlook x (by rw [hpreds]; exact hx)
        have hst2 := startTime_eq_cons hpl
        rw [hstartF] at hst2
        have hs3 := Option.some.inj hst2
        simp only [lpStart]
        exact hs3.symm
    rw [hlook, hlp, hz i t ht]

theorem scheduleRep_spec (z : ℕ → ℚ) (L : List Task) (d : Task → ℚ)
    (hne : L ≠ []) (hnd : (L.map Task.id).Nodup) (htopo : topoOrdered L [] = true)
    (hz : ∀ (i : ℕ) (t : Task), L[i]? = some t → sample_task_duration t (z i) = d t) :
    scheduleRep z L = some (projectDurationSpec L d) := by
  obtain ⟨m, hrun⟩ := runTasks_some_of_topo z L 0 [] htopo
  obtain ⟨ext, hm, hkeys, hfix⟩ := runTasks_sound z L 0 [] m hrun
  rw [List.append_nil] at hm
  subst hm
  have hfix2 : ∀ (i : ℕ) (t : Task), L[i]? = some t →
      ∃ s, startTime ((ext.take i).reverse) t.predecessors = some s ∧
        ext[i]? = some (t.id, s + sample_task_duration t (z i)) := by
    intro i t ht
    obtain ⟨s, hstart, hget⟩ := hfix i t ht
    rw [List.append_nil] at hstart
    rw [Nat.zero_add] at hget
    exact ⟨s, hstart, hget⟩
  have hmaster := runTasks_lookup_lp z L d hnd htopo hz hkeys hfix2
  have hrevnd : (ext.reverse.map Prod.fst).Nodup := by
    rw [List.map_reverse, hkeys]
    exact List.nodup_reverse.mpr hnd
  have hvals : ∀ x : ℚ, x ∈ ext.reverse.map Prod.snd ↔
      x ∈ L.map (fun t => lpFinishD L d L.length t.id) := by
    intro x
    constructor
    · intro hx
      obtain ⟨pr, hpr, hsnd⟩ := List.mem_map.mp hx
      obtain ⟨q, v⟩ := pr
      have hq : q ∈ L.map Task.id := by
        rw [← hkeys]
        exact List.mem_map.mpr ⟨(q, v), List.mem_reverse.mp hpr, rfl⟩
      obtain ⟨t, htL, hid⟩ := List.mem_map.mp hq
      obtain ⟨i, hti⟩ := List.mem_iff_getElem?.mp htL
      have hlook := hmaster i t hti
      rw [hid] at hlook
      rw [lookupId_of_mem_nodup hpr hrevnd] at hlook
      have hv := Option.some.inj hlook
      refine List.mem_map.mpr ⟨t, htL, ?_⟩
      rw [hid, ← hv]
      exact hsnd
    · intro hx
      obtain ⟨t, htL, hfx⟩ := List.mem_map.mp hx
      obtain ⟨i, hti⟩ := List.mem_iff_getElem?.mp htL
      exact List.mem_map.mpr ⟨(t.id, lpFinishD L d L.length t.id),
        lookupId_mem (hmaster i t hti), hfx⟩
  cases hm2 : ext.reverse with
  | nil =>
    exfalso
    apply hne
    have hextnil : ext = [] := by
      have h2 := congrArg List.reverse hm2
      rw [List.reverse_reverse] at h2
      exact h2
    rw [hextnil] at hkeys
    simp only [List.map_nil] at hkeys
    have h3 := hkeys.symm
    rw [List.map_eq_nil_iff] at h3
    exact h3
  | cons pr rest =>
    obtain ⟨p0, v0⟩ := pr
    cases hLf : L.map (fun t => lpFinishD L d L.length t.id) with
    | nil =>
      exfalso
      rw [List.map_eq_nil_iff] at hLf
      exact hne hLf
    | cons w ws =>
      have hPDS : projectDurationSpec L d = listMax w ws := by
        simp only [projectDurationSpec]
        rw [hLf]
      have hrep : scheduleRep z L = some (listMax v0 (rest.map Prod.snd)) := by
        simp only [scheduleRep, hrun, hm2]
      rw [hrep, hPDS]
      congr 1
      refine listMax_congr ?_
      intro x
      have hv2 : ext.reverse.map Prod.snd = v0 :: rest.map Prod.snd := by
        rw [hm2, List.map_cons]
      rw [← hv2, ← hLf]
      exact hvals x

theorem findTask_none {L : List Task} {i : ℕ}
    (h : findTask L i = none) : ∀ t ∈ L, t.id ≠ i := by
  induction L with
  | nil => intro t ht; simp at ht
  | cons s L ih =>
    by_cases hs : s.id = i
    · rw [findTask, if_pos hs] at h
      exact absurd h (by simp)
    · rw [findTask, if_neg hs] at h
      intro t ht
      rcases List.mem_cons.mp ht with rfl | htm
      · exact hs
      · exact ih h t htm

theorem findTask_perm {L1 L2 : List Task} (hperm : L1.Perm L2)
    (hnd : (L1.map Task.id).Nodup) : ∀ i, findTask L1 i = findTask L2 i := by
  have hnd2 : (L2.map Task.id).Nodup := ((hperm.map Task.id).nodup_iff).mp hnd
  intro i
  cases hf : findTask L1 i with
  | some t =>
    obtain ⟨htm, hid⟩ := findTask_eq_some hf
    rw [← hid]
    exact (findTask_of_mem_nodup (hperm.mem_iff.mp htm) hnd2).symm
  | none =>
    exact (findTask_eq_none
      (fun t ht => findTask_none hf t (hperm.mem_iff.mpr ht))).symm

theorem lpFinishD_perm {L1 L2 : List Task} (d : Task → ℚ) (hperm : L1.Perm L2)
    (hnd : (L1.map Task.id).Nodup) :
    ∀ (fuel i : ℕ), lpFinishD L1 d fuel i = lpFinishD L2 d fuel i := by
  intro fuel
  induction fuel with
  | zero => intro i; rfl
  | succ fuel ih =>
    intro i
    simp only [lpFinishD]
    rw [findTask_perm hperm hnd i]
    cases findTask L2 i with
    | none => rfl
    | some t =>
      show lpStart (lpFinishD L1 d fuel) t.predecessors + d t =
        lpStart (lpFinishD L2 d fuel) t.predecessors + d t
      congr 1
      exact lpStart_congr (fun q _ => ih q)

theorem projectDurationSpec_perm {L1 L2 : List Task} (d : Task → ℚ)
    (hperm : L1.Perm L2) (hnd : (L1.map Task.id).Nodup) :
    projectDurationSpec L1 d = projectDurationSpec L2 d := by
  have hlen : L1.length = L2.length := hperm.length_eq
  have hf : ∀ t : Task, lpFinishD L1 d L1.length t.id = lpFinishD L2 d L2.length t.id := by
    intro t
    rw [hlen]
    exact lpFinishD_perm d hperm hnd L2.length t.id
  have hmapeq : L2.map (fun t => lpFinishD L1 d L1.length t.id) =
      L2.map (fun t => lpFinishD L2 d L2.length t.id) :=
    List.map_congr_left (fun t _ => hf t)
  have hmperm : (L1.map (fun t => lpFinishD L1 d L1.length t.id)).Perm
      (L2.map (fun t => lpFinishD L2 d L2.length t.id)) := by
    rw [← hmapeq]
    exact hperm.map _
  simp only [projectDurationSpec]
  cases h1 : L1.map (fun t => lpFinishD L1 d L1.length t.id) with
  | nil =>
    rw [h1] at hmperm
    rw [hmperm.symm.eq_nil]
  | cons v vs =>
    rw [h1] at hmperm
    cases h2 : L2.map (fun t => lpFinishD L2 d L2.length t.id) with
    | nil =>
      rw [h2] at hmperm
      exact absurd hmperm.eq_nil (by simp)
    | cons w ws =>
      rw [h2] at hmperm
      exact listMax_congr (fun x => hmperm.mem_iff)

/-- C1 counterexample: [B, A] and [A, B] are two insertion orders of the
same two tasks (B depends on A), yet the replication on [B, A] fails with
a missing-predecessor lookup (KeyError) while [A, B] succeeds: the code
iterates in insertion order, not in a topological order. -/
theorem claim1_counterexample :
    ([taskB, taskA] : List Task).Perm [taskA, taskB] ∧
    scheduleRep (fun _ => 0) [taskB, taskA] = none ∧
    scheduleRep (fun _ => 0) [taskA, taskB] = some 9 := by
  refine ⟨List.Perm.swap taskA taskB [], by decide, ?_⟩
  norm_num [scheduleRep, runTasks, startTime, predFinishes, lookupId, listMax, qmax,
    sample_task_duration, taskMean, taskStdDev, taskA, taskB]

/-- C1 (amended): the code processes tasks in insertion order, so a
replication succeeds when every task's predecessors appear earlier in the
list (a topological insertion order).  For two such insertion orders of
the same set of tasks (distinct ids), with each task receiving the same
sampled duration, both replications succeed and return the same project
duration — the longest-path value of the graph. -/
theorem claim1_theorem (L1 L2 : List Task) (z1 z2 : ℕ → ℚ) (d : Task → ℚ)
    (hperm : L1.Perm L2) (hne : L1 ≠ [])
    (hnd : (L1.map Task.id).Nodup)
    (ht1 : topoOrdered L1 [] = true) (ht2 : topoOrdered L2 [] = true)
    (hz1 : ∀ (i : ℕ) (t : Task), L1[i]? = some t → sample_task_duration t (z1 i) = d t)
    (hz2 : ∀ (i : ℕ) (t : Task), L2[i]? = some t → sample_task_duration t (z2 i) = d t) :
    scheduleRep z1 L1 = some (projectDurationSpec L1 d) ∧
    scheduleRep z2 L2 = some (projectDurationSpec L2 d) ∧
    scheduleRep z1 L1 = scheduleRep z2 L2 := by
  have hne2 : L2 ≠ [] := by
    intro h
    rw [h] at hperm
    exact hne hperm.eq_nil
  have hnd2 : (L2.map Task.id).Nodup := ((hperm.map Task.id).nodup_iff).mp hnd
  have h1 := scheduleRep_spec z1 L1 d hne hnd ht1 hz1
  have h2 := scheduleRep_spec z2 L2 d hne2 hnd2 ht2 hz2
  refine ⟨h1, h2, ?_⟩
  rw [h1, h2, projectDurationSpec_perm d hperm hnd]

/-- C1 witness: the notebook's four tasks in two topological insertion
orders (B and C exchanged), with zero draws so that every task's duration
is its PERT mean. -/
theorem claim1_witness :
    scheduleRep (fun _ => 0) [taskA, taskB, taskC, taskD] =
      some (projectDurationSpec [taskA, taskB, taskC, taskD] (fun t => taskMean t)) ∧
    scheduleRep (fun _ => 0) [taskA, taskC, taskB, taskD] =
      some (projectDurationSpec [taskA, taskC, taskB, taskD] (fun t => taskMean t)) ∧
    scheduleRep (fun _ => 0) [taskA, taskB, taskC, taskD] =
      scheduleRep (fun _ => 0) [taskA, taskC, taskB, taskD] :=
  claim1_theorem [taskA, taskB, taskC, taskD] [taskA, taskC, taskB, taskD]
    (fun _ => 0) (fun _ => 0) (fun t => taskMean t)
    (List.Perm.cons taskA (List.Perm.swap taskC taskB [taskD]))
    (List.cons_ne_nil _ _)
    (by decide) (by decide) (by decide)
    (fun i t _ => by simp [sample_task_duration])
    (fun i t _ => by simp [sample_task_duration])

theorem mapM_option_const {f : ℕ → Option ℚ} {c : ℚ} :
    ∀ {l : List ℕ}, (∀ x ∈ l, f x = some c) → l.mapM f = some (l.map (fun _ => c)) := by
  intro l
  induction l with
  | nil => intro _; rfl
  | cons x xs ih =>
    intro h
    rw [List.mapM_cons, h x (List.mem_cons_self _ _),
      ih (fun y hy => h y (List.mem_cons_of_mem _ hy))]
    rfl

/-- C5 counterexample: the two zero-variance tasks zvA and zvB form an
acyclic graph (the order [zvA, zvB] is topological); yet presented in the
insertion order [zvB, zvA] the replication fails with a KeyError instead
of returning the critical-path length, while the topological insertion
order returns exactly it. -/
theorem claim5_counterexample :
    topoOrdered [zvA, zvB] [] = true ∧
    ([zvB, zvA] : List Task).Perm [zvA, zvB] ∧
    (zvA.optimistic = zvA.mostLikely ∧ zvA.pessimistic = zvA.mostLikely) ∧
    (zvB.optimistic = zvB.mostLikely ∧ zvB.pessimistic = zvB.mostLikely) ∧
    scheduleRep (fun _ => 0) [zvB, zvA] = none ∧
    scheduleRep (fun _ => 0) [zvA, zvB] = some (criticalPathLength [zvA, zvB]) := by
  refine ⟨by decide, List.Perm.swap zvA zvB [], ⟨rfl, rfl⟩, ⟨rfl, rfl⟩, by decide, ?_⟩
  norm_num [scheduleRep, runTasks, startTime, predFinishes, lookupId, listMax, qmax,
    sample_task_duration, taskMean, taskStdDev, zvA, zvB,
    criticalPathLength, projectDurationSpec, lpFinishD, lpStart, findTask]

/-- C5 (amended): for every nonempty task list in a dependency-respecting
insertion order, with distinct ids and o = m = p for every task, every
replication returns exactly the deterministic critical-path length (the
longest-path value with weights m), and the whole run returns that value
for every replication. -/
theorem claim5_theorem (L : List Task)
    (hne : L ≠ []) (hnd : (L.map Task.id).Nodup) (htopo : topoOrdered L [] = true)
    (hzero : ∀ t ∈ L, t.optimistic = t.mostLikely ∧ t.pessimistic = t.mostLikely) :
    (∀ z : ℕ → ℚ, scheduleRep z L = some (criticalPathLength L)) ∧
    (∀ (numSimulations : ℕ) (z : ℕ → ℚ),
      monte_carlo_schedule L numSimulations z =
        some (List.replicate numSimulations (criticalPathLength L))) := by
  have hrep : ∀ z : ℕ → ℚ, scheduleRep z L = some (criticalPathLength L) := by
    intro z
    refine scheduleRep_spec z L (fun t => t.mostLikely) hne hnd htopo ?_
    intro i t ht
    have hz := hzero t (List.mem_iff_getElem?.mpr ⟨i, ht⟩)
    unfold sample_task_duration taskMean taskStdDev
    rw [hz.1, hz.2]
    ring
  refine ⟨hrep, ?_⟩
  intro n z
  unfold monte_carlo_schedule
  rw [mapM_option_const (fun r _ => hrep _), List.map_const', List.length_range]

/-- C5 witness: the zero-variance two-task chain in topological order;
any draw stream (here the constant 7) gives the critical-path length. -/
theorem claim5_witness :
    scheduleRep (fun _ => 7) [zvA, zvB] = some (criticalPathLength [zvA, zvB]) :=
  (claim5_theorem [zvA, zvB] (List.cons_ne_nil _ _) (by decide) (by decide)
    (by
      intro t ht
      rcases List.mem_cons.mp ht with rfl | ht2
      · exact ⟨rfl, rfl⟩
      · rcases List.mem_cons.mp ht2 with rfl | ht3
        · exact ⟨rfl, rfl⟩
        · simp at ht3)).1 (fun _ => 7)

theorem nodup_indexOf_eq {l : List ℕ} (hnd : l.Nodup) :
    ∀ (j : ℕ) (a : ℕ), l[j]? = some a → l.indexOf a = j := by
  induction l with
  | nil => intro j a h; simp at h
  | cons x xs ih =>
    intro j a h
    rw [List.nodup_cons] at hnd
    cases j with
    | zero =>
      rw [List.getElem?_cons_zero] at h
      obtain rfl := Option.some.inj h
      exact List.indexOf_cons_self _ _
    | succ j =>
      rw [List.getElem?_cons_succ] at h
      have ha : a ∈ xs := List.mem_iff_getElem?.mpr ⟨j, h⟩
      have hne : x ≠ a := fun hx => hnd.1 (by rw [hx]; exact ha)
      rw [List.indexOf_cons_ne _ hne, ih hnd.2 j a h]

theorem runTasks_success_preds (z : ℕ → ℚ) (L : List Task) {m : List (ℕ × ℚ)}
    (h : runTasks z L 0 [] = some m) :
    ∀ (i : ℕ) (t : Task), L[i]? = some t → ∀ p ∈ t.predecessors,
      ∃ (j : ℕ) (tj : Task), j < i ∧ L[j]? = some tj ∧ tj.id = p := by
  obtain ⟨ext, hm, hkeys, hfix⟩ := runTasks_sound z L 0 [] m h
  intro i t ht p hp
  obtain ⟨s, hstart, _⟩ := hfix i t ht
  rw [List.append_nil] at hstart
  have hpk : p ∈ ((ext.take i).reverse).map Prod.fst := startTime_mem_keys hstart p hp
  rw [List.map_reverse, List.mem_reverse, List.map_take, hkeys] at hpk
  obtain ⟨j, hj⟩ := List.mem_iff_getElem?.mp hpk
  have hjlen : j < ((L.map Task.id).take i).length := (List.getElem?_eq_some_iff.mp hj).1
  have hji : j < i := by
    rw [List.length_take] at hjlen
    omega
  rw [List.getElem?_take_of_lt hji] at hj
  rw [List.getElem?_map] at hj
  cases hLj : L[j]? with
  | none =>
    rw [hLj] at hj
    exact absurd hj (by simp)
  | some tj =>
    rw [hLj] at hj
    simp only [Option.map_some'] at hj
    exact ⟨j, tj, hji, hLj, Option.some.inj hj⟩

/-- C2 counterexample: the cyclic graph (A depends on B, B depends on A)
is not rejected at construction: with zero replications the whole run
succeeds and returns the empty sample, and the failure only appears when
the first replication actually executes (a missing-predecessor lookup,
not a `GraphError` raised beforehand). -/
theorem claim2_counterexample :
    monte_carlo_schedule cyclicTasks 0 (fun _ => 0) = some [] ∧
    monte_carlo_schedule cyclicTasks 1 (fun _ => 0) = none := by
  exact ⟨by decide, by decide⟩

/-- C2 (amended): the code performs no construction-time validation: for
a task graph (with distinct ids) containing a dependency cycle, or one
referencing a predecessor id absent from the graph, every replication
fails with a missing-predecessor lookup error (KeyError), so any run with
at least one replication fails during that first replication — not at
construction. -/
theorem claim2_theorem (L : List Task) (hnd : (L.map Task.id).Nodup)
    (hbad : HasCycle L ∨ ∃ t ∈ L, ∃ p ∈ t.predecessors, p ∉ L.map Task.id) :
    (∀ z : ℕ → ℚ, scheduleRep z L = none) ∧
    (∀ (n : ℕ) (z : ℕ → ℚ), 1 ≤ n → monte_carlo_schedule L n z = none) := by
  have hrep : ∀ z : ℕ → ℚ, scheduleRep z L = none := by
    intro z
    cases hrun : runTasks z L 0 [] with
    | none => simp only [scheduleRep, hrun]
    | some m =>
      exfalso
      have hpreds := runTasks_success_preds z L hrun
      rcases hbad with ⟨a, hcyc⟩ | ⟨t, htL, p, hp, hnotin⟩
      · have hdep : ∀ (x y : ℕ), Depends L x y →
            (L.map Task.id).indexOf y < (L.map Task.id).indexOf x := by
          intro x y hxy
          obtain ⟨t2, htL2, hid, hy⟩ := hxy
          obtain ⟨i, hti⟩ := List.mem_iff_getElem?.mp htL2
          obtain ⟨j, tj, hji, htj, hjid⟩ := hpreds i t2 hti y hy
          have hxi : (L.map Task.id)[i]? = some x := by
            rw [List.getElem?_map, hti, Option.map_some', hid]
          have hyj : (L.map Task.id)[j]? = some y := by
            rw [List.getElem?_map, htj, Option.map_some', hjid]
          rw [nodup_indexOf_eq hnd i x hxi, nodup_indexOf_eq hnd j y hyj]
          exact hji
        have hlt : ∀ (x y : ℕ), Relation.TransGen (Depends L) x y →
            (L.map Task.id).indexOf y < (L.map Task.id).indexOf x := by
          intro x y hxy
          induction hxy with
          | single h1 => exact hdep _ _ h1
          | tail h1 h2 ih => exact lt_trans (hdep _ _ h2) ih
        exact lt_irrefl _ (hlt a a hcyc)
      · obtain ⟨i, hti⟩ := List.mem_iff_getElem?.mp htL
        obtain ⟨j, tj, _, htj, hjid⟩ := hpreds i t hti p hp
        exact hnotin (List.mem_map.mpr ⟨tj, List.mem_iff_getElem?.mpr ⟨j, htj⟩, hjid⟩)
  refine ⟨hrep, ?_⟩
  intro n z hn
  obtain ⟨nn, rfl⟩ : ∃ nn, n = nn + 1 := ⟨n - 1, by omega⟩
  unfold monte_carlo_schedule
  rw [List.range_succ_eq_map, List.mapM_cons, hrep]
  rfl

/-- C2 witness: the amended theorem applied to the concrete 2-cycle graph
(the explicit dependency chain 0 → 1 → 0). -/
theorem claim2_witness :
    scheduleRep (fun _ => 0) cyclicTasks = none ∧
    monte_carlo_schedule cyclicTasks 2 (fun _ => 0) = none := by
  have hdep01 : Depends cyclicTasks 0 1 :=
    ⟨cycA, List.mem_cons_self _ _, rfl, List.mem_singleton.mpr rfl⟩
  have hdep10 : Depends cyclicTasks 1 0 :=
    ⟨cycB, List.mem_cons_of_mem _ (List.mem_cons_self _ _), rfl,
      List.mem_singleton.mpr rfl⟩
  have hcyc : HasCycle cyclicTasks :=
    ⟨0, Relation.TransGen.tail (Relation.TransGen.single hdep01) hdep10⟩
  exact ⟨(claim2_theorem cyclicTasks (by decide) (Or.inl hcyc)).1 _,
    (claim2_theorem cyclicTasks (by decide) (Or.inl hcyc)).2 2 _ (by norm_num)⟩

/-- C6: in a successful replication (tasks with distinct ids), each
task's recorded finish time equals its start time plus its sampled
duration, with the start time 0 for a task with no predecessors and
otherwise the maximum recorded finish time of its predecessors (that is
what `startTime` computes over the final map); and the replication's
scalar output is the maximum recorded finish time over all tasks. -/
theorem claim6_theorem (L : List Task) (z : ℕ → ℚ) (m : List (ℕ × ℚ)) (v : ℚ)
    (hnd : (L.map Task.id).Nodup)
    (hrun : runTasks z L 0 [] = some m)
    (hrep : scheduleRep z L = some v) :
    (∀ (i : ℕ) (t : Task), L[i]? = some t →
      lookupId m t.id = (startTime m t.predecessors).map
        (fun start => start + sample_task_duration t (z i))) ∧
    (∃ (i : ℕ) (t : Task), L[i]? = some t ∧ lookupId m t.id = some v) ∧
    (∀ (i : ℕ) (t : Task) (x : ℚ), L[i]? = some t → lookupId m t.id = some x → x ≤ v) := by
  obtain ⟨ext, hm, hkeys, hfix⟩ := runTasks_sound z L 0 [] m hrun
  rw [List.append_nil] at hm
  subst hm
  have hknd : (ext.map Prod.fst).Nodup := by rw [hkeys]; exact hnd
  have hrevnd : (ext.reverse.map Prod.fst).Nodup := by
    rw [List.map_reverse]
    exact List.nodup_reverse.mpr hknd
  have hfix2 : ∀ (i : ℕ) (t : Task), L[i]? = some t →
      ∃ s, startTime ext.reverse t.predecessors = some s ∧
        lookupId ext.reverse t.id = some (s + sample_task_duration t (z i)) := by
    intro i t ht
    obtain ⟨s, hstart, hget⟩ := hfix i t ht
    rw [List.append_nil] at hstart
    rw [Nat.zero_add] at hget
    have hpart : ∀ p ∈ t.predecessors,
        lookupId ((ext.take i).reverse) p = lookupId ext.reverse p := by
      intro p hp
      obtain ⟨w, hw⟩ := lookupId_isSome_of_mem (startTime_mem_keys hstart p hp)
      rw [hw, lookupId_take_to_full hknd i hw]
    refine ⟨s, ?_, ?_⟩
    · rw [← startTime_congr hpart]
      exact hstart
    · exact lookupId_of_mem_nodup
        (List.mem_reverse.mpr (List.mem_iff_getElem?.mpr ⟨i, hget⟩)) hrevnd
  refine ⟨?_, ?_, ?_⟩
  · intro i t ht
    obtain ⟨s, hstart, hlook⟩ := hfix2 i t ht
    rw [hstart, hlook]
    rfl
  · cases hm2 : ext.reverse with
    | nil =>
      simp only [scheduleRep, hrun, hm2] at hrep
      exact absurd hrep (by simp)
    | cons pr rest =>
      obtain ⟨p0, v0⟩ := pr
      simp only [scheduleRep, hrun, hm2] at hrep
      have hv := Option.some.inj hrep
      have hvmem : v ∈ ext.reverse.map Prod.snd := by
        rw [hm2, List.map_cons, ← hv]
        exact listMax_mem _ _
      obtain ⟨pr2, hpr2, hsnd⟩ := List.mem_map.mp hvmem
      obtain ⟨q, w⟩ := pr2
      obtain ⟨ii, hii⟩ := List.mem_iff_getElem?.mp (List.mem_reverse.mp hpr2)
      have hiilen : ii < ext.length := (List.getElem?_eq_some_iff.mp hii).1
      have hLlen : ext.length = L.length := by
        have h2 := congrArg List.length hkeys
        simpa using h2
      cases hLt : L[ii]? with
      | none =>
        rw [List.getElem?_eq_none_iff] at hLt
        omega
      | some t =>
        obtain ⟨s2, _, hget2⟩ := hfix ii t hLt
        rw [Nat.zero_add] at hget2
        rw [hget2] at hii
        have hqw := Option.some.inj hii
        rw [Prod.mk.injEq] at hqw
        refine ⟨ii, t, hLt, ?_⟩
        have hlq : lookupId ext.reverse q = some w := lookupId_of_mem_nodup hpr2 hrevnd
        have hwv : w = v := hsnd
        rw [hm2] at hlq
        rw [hqw.1, hlq, hwv]
  · intro i t x ht hlx
    cases hm2 : ext.reverse with
    | nil =>
      simp only [scheduleRep, hrun, hm2] at hrep
      exact absurd hrep (by simp)
    | cons pr rest =>
      obtain ⟨p0, v0⟩ := pr
      simp only [scheduleRep, hrun, hm2] at hrep
      have hv := Option.some.inj hrep
      have hxmem : x ∈ ext.reverse.map Prod.snd :=
        List.mem_map.mpr ⟨(t.id, x), lookupId_mem hlx, rfl⟩
      rw [hm2, List.map_cons] at hxmem
      rw [← hv]
      exact le_listMax _ _ _ hxmem

/-- C6 witness: the fixpoint characterization holds for the notebook's
four-task graph with all draws 0 (finishes 4, 9, 6, 12; output 12). -/
theorem claim6_witness :
    (∀ (i : ℕ) (t : Task), exampleTasks[i]? = some t →
      lookupId mFour t.id = (startTime mFour t.predecessors).map
        (fun start => start + sample_task_duration t 0)) ∧
    (∃ (i : ℕ) (t : Task), exampleTasks[i]? = some t ∧ lookupId mFour t.id = some 12) ∧
    (∀ (i : ℕ) (t : Task) (x : ℚ), exampleTasks[i]? = some t →
      lookupId mFour t.id = some x → x ≤ 12) :=
  claim6_theorem exampleTasks (fun _ => 0) mFour 12 (by decide)
    (by norm_num [runTasks, startTime, predFinishes, lookupId, listMax, qmax,
      sample_task_duration, taskMean, taskStdDev, exampleTasks, taskA, taskB, taskC, taskD,
      mFour])
    (by norm_num [scheduleRep, runTasks, startTime, predFinishes, lookupId, listMax, qmax,
      sample_task_duration, taskMean, taskStdDev, exampleTasks, taskA, taskB, taskC, taskD])

end MonteCarlo
